import Mathlib

set_option maxHeartbeats 1000000

/-!
Verification development for the TAG request-orchestration pipeline:
the TOON dictionary-compression codec (`app/services/toon.py`), the SQL
query refiner (`app/services/query_refiner.py`), the SQL safety validator
(`app/services/sql_validator.py`), the tenant-scoped cache key
(`app/workflow/nodes/sql_node.py` + `app/services/cache_service.py`), the
person-name resolver (`app/services/person_resolver_service.py`) and the
LangGraph self-correction state machine (`app/workflow/graph.py` with its
nodes). Python strings are modelled as `List Char` (ASCII model of
`str.lower`/`str.upper`/`str.strip`); Python `dict`s keyed by strings as
association lists; the LLM, the database, the Redis store and the sqlglot
parser are external collaborators modelled as oracle parameters.
-/

/-- Python strings, modelled as lists of characters. -/
abbrev Str := List Char

/-- The six ASCII characters Python's `str.strip()` (and `\s` in `re`)
treats as whitespace. -/
def isPySpace (c : Char) : Bool :=
  c = ' ' || c = '\t' || c = '\n' || c = '\r' || c = '\x0b' || c = '\x0c'

/-- ASCII model of Python's per-character `str.lower`. -/
def pyLowerChar (c : Char) : Char :=
  match c with
  | 'A' => 'a' | 'B' => 'b' | 'C' => 'c' | 'D' => 'd' | 'E' => 'e' | 'F' => 'f'
  | 'G' => 'g' | 'H' => 'h' | 'I' => 'i' | 'J' => 'j' | 'K' => 'k' | 'L' => 'l'
  | 'M' => 'm' | 'N' => 'n' | 'O' => 'o' | 'P' => 'p' | 'Q' => 'q' | 'R' => 'r'
  | 'S' => 's' | 'T' => 't' | 'U' => 'u' | 'V' => 'v' | 'W' => 'w' | 'X' => 'x'
  | 'Y' => 'y' | 'Z' => 'z' | c => c

/-- ASCII model of Python's per-character `str.upper`. -/
def pyUpperChar (c : Char) : Char :=
  match c with
  | 'a' => 'A' | 'b' => 'B' | 'c' => 'C' | 'd' => 'D' | 'e' => 'E' | 'f' => 'F'
  | 'g' => 'G' | 'h' => 'H' | 'i' => 'I' | 'j' => 'J' | 'k' => 'K' | 'l' => 'L'
  | 'm' => 'M' | 'n' => 'N' | 'o' => 'O' | 'p' => 'P' | 'q' => 'Q' | 'r' => 'R'
  | 's' => 'S' | 't' => 'T' | 'u' => 'U' | 'v' => 'V' | 'w' => 'W' | 'x' => 'X'
  | 'y' => 'Y' | 'z' => 'Z' | c => c

/-- Python `s.lower()`. -/
def pyLower (s : Str) : Str := s.map pyLowerChar

/-- Python `s.upper()`. -/
def pyUpper (s : Str) : Str := s.map pyUpperChar

/-- Lowercasing a character does not change whether it is whitespace. -/
theorem isPySpace_pyLowerChar (c : Char) : isPySpace (pyLowerChar c) = isPySpace c := by
  unfold pyLowerChar
  split <;> rfl

/-- Python `s.strip()`: remove leading and trailing whitespace. -/
def pyStrip (s : Str) : Str :=
  ((s.dropWhile isPySpace).reverse.dropWhile isPySpace).reverse

/-- `hay.startsWith needle` on character lists. -/
def startsWithStr : Str → Str → Bool
  | _, [] => true
  | [], _ :: _ => false
  | c :: h, d :: n => c = d && startsWithStr h n

/-- Python's substring test `needle in hay`, searching left to right. -/
def containsStr : Str → Str → Bool
  | [], n => startsWithStr [] n
  | c :: t, n => startsWithStr (c :: t) n || containsStr t n

theorem startsWithStr_iff (h n : Str) : startsWithStr h n = true ↔ ∃ t, h = n ++ t := by
  induction n generalizing h with
  | nil => simp [startsWithStr]
  | cons d n ih =>
    cases h with
    | nil => simp [startsWithStr]
    | cons c t =>
      simp only [startsWithStr, Bool.and_eq_true, decide_eq_true_eq, ih]
      constructor
      · rintro ⟨rfl, u, rfl⟩; exact ⟨u, rfl⟩
      · rintro ⟨u, hu⟩
        injection hu with h1 h2
        exact ⟨h1, u, h2⟩

theorem containsStr_iff (h n : Str) : containsStr h n = true ↔ ∃ a b, h = a ++ n ++ b := by
  induction h with
  | nil =>
    simp only [containsStr, startsWithStr_iff]
    constructor
    · rintro ⟨t, ht⟩; exact ⟨[], t, by simpa using ht⟩
    · rintro ⟨a, b, hab⟩
      cases a with
      | nil => exact ⟨b, by simpa using hab⟩
      | cons x xs => simp at hab
  | cons c t ih =>
    simp only [containsStr, Bool.or_eq_true, startsWithStr_iff, ih]
    constructor
    · rintro (⟨u, hu⟩ | ⟨a, b, hab⟩)
      · exact ⟨[], u, by simpa using hu⟩
      · exact ⟨c :: a, b, by simp [hab]⟩
    · rintro ⟨a, b, hab⟩
      cases a with
      | nil => exact Or.inl ⟨b, by simpa using hab⟩
      | cons x xs =>
        injection hab with h1 h2
        exact Or.inr ⟨xs, b, h2⟩

/-- A string contains any suffix appended to it that itself contains the needle. -/
theorem containsStr_append_right (s a b n : Str) :
    containsStr (s ++ (a ++ n ++ b)) n = true := by
  rw [containsStr_iff]
  exact ⟨s ++ a, b, by simp⟩

/-! ### Decimal rendering (Python `str(int)`) and parsing (Python `int(str)`) -/

/-- The character of a decimal digit. -/
def digitChar (d : Nat) : Char :=
  if d = 0 then '0' else if d = 1 then '1' else if d = 2 then '2'
  else if d = 3 then '3' else if d = 4 then '4' else if d = 5 then '5'
  else if d = 6 then '6' else if d = 7 then '7' else if d = 8 then '8' else '9'

def isDigitChar (c : Char) : Bool := '0' ≤ c && c ≤ '9'

def digitVal (c : Char) : Nat := c.toNat - 48

theorem isDigitChar_digitChar (d : Nat) : isDigitChar (digitChar d) = true := by
  unfold digitChar
  split_ifs <;> decide

theorem digitVal_digitChar (d : Nat) (h : d < 10) : digitVal (digitChar d) = d := by
  interval_cases d <;> decide

/-- Decimal digits of `n`, least significant first (empty for 0); the
first argument is structural-recursion fuel, `n` itself always suffices. -/
def natToRevDigitsAux : Nat → Nat → List Char
  | 0, _ => []
  | fuel + 1, n => if n = 0 then [] else digitChar (n % 10) :: natToRevDigitsAux fuel (n / 10)

def natToRevDigits (n : Nat) : List Char := natToRevDigitsAux n n

theorem natToRevDigitsAux_congr (f1 : Nat) :
    ∀ f2 n, n ≤ f1 → n ≤ f2 → natToRevDigitsAux f1 n = natToRevDigitsAux f2 n := by
  induction f1 with
  | zero =>
    intro f2 n h1 _
    interval_cases n
    cases f2 <;> simp [natToRevDigitsAux]
  | succ g ih =>
    intro f2 n h1 h2
    by_cases hn : n = 0
    · subst hn
      cases f2 <;> simp [natToRevDigitsAux]
    · cases f2 with
      | zero => omega
      | succ h =>
        rw [natToRevDigitsAux, natToRevDigitsAux, if_neg hn, if_neg hn]
        congr 1
        have hlt : n / 10 < n := Nat.div_lt_self (Nat.pos_of_ne_zero hn) (by decide)
        exact ih h (n / 10) (by omega) (by omega)

theorem natToRevDigits_step (n : Nat) (h : n ≠ 0) :
    natToRevDigits n = digitChar (n % 10) :: natToRevDigits (n / 10) := by
  rw [natToRevDigits, natToRevDigits]
  cases n with
  | zero => exact absurd rfl h
  | succ m =>
    rw [natToRevDigitsAux, if_neg h]
    congr 1
    have hlt : (m + 1) / 10 < m + 1 := Nat.div_lt_self (Nat.succ_pos m) (by decide)
    exact natToRevDigitsAux_congr m ((m + 1) / 10) ((m + 1) / 10) (by omega) (by omega)

theorem natToRevDigits_ne_nil {n : Nat} (h : n ≠ 0) : natToRevDigits n ≠ [] := by
  rw [natToRevDigits_step n h]
  simp

/-- Python `str(n)` for a natural number. -/
def strOfNat (n : Nat) : Str := if n = 0 then ['0'] else (natToRevDigits n).reverse

/-- Python `str(i)` for an integer. -/
def strOfInt (i : Int) : Str :=
  if i < 0 then '-' :: strOfNat i.natAbs else strOfNat i.toNat

/-- Value of a least-significant-first digit list. -/
def revVal : List Char → Nat
  | [] => 0
  | c :: r => digitVal c + 10 * revVal r

theorem revVal_natToRevDigits (n : Nat) : revVal (natToRevDigits n) = n := by
  induction n using Nat.strong_induction_on with
  | _ n ih =>
    by_cases h : n = 0
    · subst h
      rfl
    · rw [natToRevDigits_step n h]
      simp only [revVal]
      rw [digitVal_digitChar (n % 10) (Nat.mod_lt n (by omega)),
        ih (n / 10) (Nat.div_lt_self (Nat.pos_of_ne_zero h) (by decide))]
      omega

theorem mem_natToRevDigits_digit (n : Nat) :
    ∀ c ∈ natToRevDigits n, isDigitChar c = true := by
  induction n using Nat.strong_induction_on with
  | _ n ih =>
    by_cases h : n = 0
    · subst h; intro c hc; exact absurd hc (by simp [natToRevDigits, natToRevDigitsAux])
    · rw [natToRevDigits_step n h]
      simp only [List.mem_cons]
      rintro c (rfl | hc)
      · exact isDigitChar_digitChar _
      · exact ih (n / 10) (Nat.div_lt_self (Nat.pos_of_ne_zero h) (by decide)) c hc

/-- Digit-run accumulator of Python's `int()`: underscores allowed between
digits (`1_000`), nothing else.  ASCII model (no surrounding whitespace). -/
def digitsUndAux : Nat → List Char → Option Nat
  | acc, [] => some acc
  | acc, c :: rest =>
    if isDigitChar c then digitsUndAux (acc * 10 + digitVal c) rest
    else if c = '_' then
      match rest with
      | c2 :: rest2 =>
        if isDigitChar c2 then digitsUndAux (acc * 10 + digitVal c2) rest2 else none
      | [] => none
    else none

def pyParseNat : List Char → Option Nat
  | [] => none
  | c :: rest => if isDigitChar c then digitsUndAux (digitVal c) rest else none

/-- Python `int(s)` on a string with no surrounding whitespace: optional
sign, then digits (underscores between digits tolerated); anything else
raises `ValueError`, modelled as `none`. -/
def pyParseInt (s : List Char) : Option Int :=
  match s with
  | [] => none
  | c :: _rest =>
    if c = '-' then (pyParseNat s.tail).map (fun n => -(n : Int))
    else if c = '+' then (pyParseNat s.tail).map (fun n => (n : Int))
    else (pyParseNat s).map (fun n => (n : Int))

theorem digitsUndAux_of_digits (l : List Char) (hl : ∀ c ∈ l, isDigitChar c = true) :
    ∀ acc, digitsUndAux acc l = some (l.foldl (fun a c => a * 10 + digitVal c) acc) := by
  induction l with
  | nil => intro acc; simp [digitsUndAux]
  | cons c t ih =>
    intro acc
    rw [digitsUndAux.eq_def]
    simp only [hl c (List.mem_cons_self c t), if_true]
    rw [ih (fun x hx => hl x (List.mem_cons_of_mem c hx))]
    simp

theorem foldl_reverse_revVal (l : List Char) :
    ∀ acc, l.reverse.foldl (fun a c => a * 10 + digitVal c) acc
      = acc * 10 ^ l.length + revVal l := by
  induction l with
  | nil => intro acc; simp [revVal]
  | cons c t ih =>
    intro acc
    simp only [List.reverse_cons, List.foldl_append, ih acc, List.foldl_cons,
      List.foldl_nil, revVal, List.length_cons]
    rw [pow_succ]
    ring

theorem pyParseNat_strOfNat (n : Nat) : pyParseNat (strOfNat n) = some n := by
  by_cases h : n = 0
  · subst h; decide
  · rw [strOfNat, if_neg h]
    rcases hrev : (natToRevDigits n).reverse with _ | ⟨c, rest⟩
    · exfalso
      apply natToRevDigits_ne_nil h
      have := congrArg List.reverse hrev
      simpa using this
    · have hmem : ∀ x ∈ c :: rest, isDigitChar x = true := by
        intro x hx
        apply mem_natToRevDigits_digit n
        rw [← List.mem_reverse, hrev]
        exact hx
      rw [pyParseNat]
      rw [if_pos (hmem c (List.mem_cons_self c rest))]
      rw [digitsUndAux_of_digits rest (fun x hx => hmem x (List.mem_cons_of_mem c hx))]
      have : (c :: rest).foldl (fun a x => a * 10 + digitVal x) 0
          = rest.foldl (fun a x => a * 10 + digitVal x) (digitVal c) := by
        simp
      rw [← this, ← hrev, foldl_reverse_revVal, revVal_natToRevDigits]
      simp

theorem strOfNat_head_digit (n : Nat) :
    ∃ c rest, strOfNat n = c :: rest ∧ isDigitChar c = true := by
  by_cases h : n = 0
  · subst h; exact ⟨'0', [], rfl, by decide⟩
  · rw [strOfNat, if_neg h]
    rcases hrev : (natToRevDigits n).reverse with _ | ⟨c, rest⟩
    · exfalso
      apply natToRevDigits_ne_nil h
      have := congrArg List.reverse hrev
      simpa using this
    · refine ⟨c, rest, rfl, ?_⟩
      apply mem_natToRevDigits_digit n
      rw [← List.mem_reverse, hrev]
      exact List.mem_cons_self c rest

theorem pyParseInt_strOfNat (n : Nat) : pyParseInt (strOfNat n) = some (n : Int) := by
  obtain ⟨c, rest, heq, hdig⟩ := strOfNat_head_digit n
  have hne1 : c ≠ '-' := by rintro rfl; simp [isDigitChar] at hdig
  have hne2 : c ≠ '+' := by rintro rfl; simp [isDigitChar] at hdig
  rw [heq, pyParseInt, if_neg hne1, if_neg hne2, ← heq, pyParseNat_strOfNat]
  simp

/-! ### TOON codec (`app/services/toon.py`)

JSON-like values (`json.dumps`/`json.loads` normal forms): string-keyed
objects, arrays, strings, numbers, booleans, null.  Numbers are modelled
as integers; the codec passes every non-string scalar through unchanged,
so their exact carrier is immaterial. -/

mutual

inductive JVal where
  | obj (fields : JFields)
  | arr (elems : JArr)
  | str (s : Str)
  | num (n : Int)
  | jbool (b : Bool)
  | null

inductive JFields where
  | nil
  | cons (key : Str) (value : JVal) (rest : JFields)

inductive JArr where
  | nil
  | cons (head : JVal) (tail : JArr)

end

/-- Index of the first occurrence of `s` in `lk` (the `reverse_lookup`
dictionary of the codec, whose value for a key is the position at which the
key was appended to `lookup_table`). -/
def idxOf (lk : List Str) (s : Str) : Nat :=
  match lk with
  | [] => 0
  | x :: t => if x = s then 0 else idxOf t s + 1

/-- The back-reference token `f"~{idx}"`. -/
def refToken (i : Nat) : Str := '~' :: strOfNat i

/-- `ToonCodec._get_ref`: intern `s` in the lookup table (`lookup_table` and
`reverse_lookup` kept in sync are one list here) and return its token plus
the updated table. -/
def getRef (lk : List Str) (s : Str) : Str × List Str :=
  if s ∈ lk then (refToken (idxOf lk s), lk)
  else (refToken lk.length, lk ++ [s])

mutual

/-- `ToonCodec._compress_recursive`, threading the lookup table. -/
def compress : JVal → List Str → JVal × List Str
  | .obj fs, lk =>
    let r := compressFields fs lk
    (.obj r.1, r.2)
  | .arr xs, lk =>
    let r := compressArr xs lk
    (.arr r.1, r.2)
  | .str s, lk =>
    let r := getRef lk s
    (.str r.1, r.2)
  | .num n, lk => (.num n, lk)
  | .jbool b, lk => (.jbool b, lk)
  | .null, lk => (.null, lk)

/-- Object fields: the dict comprehension interns the key, then compresses
the value, left to right. -/
def compressFields : JFields → List Str → JFields × List Str
  | .nil, lk => (.nil, lk)
  | .cons k v rest, lk =>
    let rk := getRef lk k
    let rv := compress v rk.2
    let rr := compressFields rest rv.2
    (.cons rk.1 rv.1 rr.1, rr.2)

def compressArr : JArr → List Str → JArr × List Str
  | .nil, lk => (.nil, lk)
  | .cons x xs, lk =>
    let rx := compress x lk
    let rr := compressArr xs rx.2
    (.cons rx.1 rr.1, rr.2)

end

/-- `ToonCodec._resolve_ref`: a string starting with `~` whose remainder
parses as an in-range integer is replaced by its lookup entry; everything
else passes through. -/
def resolveRef (lookup : List Str) (val : Str) : Str :=
  match val with
  | '~' :: rest =>
    match pyParseInt rest with
    | some idx =>
      if 0 ≤ idx ∧ idx < (lookup.length : Int) then lookup.getD idx.toNat [] else val
    | none => val
  | _ => val

mutual

/-- `ToonCodec._decompress_recursive`. -/
def decompress (lk : List Str) : JVal → JVal
  | .obj fs => .obj (decompressFields lk fs)
  | .arr xs => .arr (decompressArr lk xs)
  | .str s => .str (resolveRef lk s)
  | .num n => .num n
  | .jbool b => .jbool b
  | .null => .null

def decompressFields (lk : List Str) : JFields → JFields
  | .nil => .nil
  | .cons k v rest => .cons (resolveRef lk k) (decompress lk v) (decompressFields lk rest)

def decompressArr (lk : List Str) : JArr → JArr
  | .nil => .nil
  | .cons x xs => .cons (decompress lk x) (decompressArr lk xs)

end

/-- `ToonCodec.encode` minus the size metrics: reset the tables and compress;
the resulting payload is `(data, lookup)`. -/
def toonEncode (x : JVal) : JVal × List Str := compress x []

/-- `ToonCodec.decode` of a payload `(data, lookup)`. -/
def toonDecode (lookup : List Str) (data : JVal) : JVal := decompress lookup data

mutual

/-- Every string occurring in a value (object keys included), in the
left-to-right, key-before-value order the encoder visits them. -/
def jstrings : JVal → List Str
  | .obj fs => fieldStrings fs
  | .arr xs => arrStrings xs
  | .str s => [s]
  | .num _ => []
  | .jbool _ => []
  | .null => []

def fieldStrings : JFields → List Str
  | .nil => []
  | .cons k v rest => k :: (jstrings v ++ fieldStrings rest)

def arrStrings : JArr → List Str
  | .nil => []
  | .cons x xs => jstrings x ++ arrStrings xs

end

mutual

/-- Replace every string in a value by its back-reference into `L`. -/
def mapRef (L : List Str) : JVal → JVal
  | .obj fs => .obj (mapRefFields L fs)
  | .arr xs => .arr (mapRefArr L xs)
  | .str s => .str (refToken (idxOf L s))
  | .num n => .num n
  | .jbool b => .jbool b
  | .null => .null

def mapRefFields (L : List Str) : JFields → JFields
  | .nil => .nil
  | .cons k v rest => .cons (refToken (idxOf L k)) (mapRef L v) (mapRefFields L rest)

def mapRefArr (L : List Str) : JArr → JArr
  | .nil => .nil
  | .cons x xs => .cons (mapRef L x) (mapRefArr L xs)

end

/-! ### Codec correctness -/

theorem idxOf_lt_length {lk : List Str} {s : Str} (h : s ∈ lk) :
    idxOf lk s < lk.length := by
  induction lk with
  | nil => simp at h
  | cons x t ih =>
    rw [idxOf]
    by_cases hx : x = s
    · simp [hx]
    · rcases List.mem_cons.mp h with h1 | h1
      · exact absurd h1.symm hx
      · simp only [if_neg hx, List.length_cons]
        exact Nat.succ_lt_succ (ih h1)

theorem getD_idxOf {lk : List Str} {s : Str} (h : s ∈ lk) :
    lk.getD (idxOf lk s) [] = s := by
  induction lk with
  | nil => simp at h
  | cons x t ih =>
    rw [idxOf]
    by_cases hx : x = s
    · simp [hx]
    · rcases List.mem_cons.mp h with h1 | h1
      · exact absurd h1.symm hx
      · simp only [if_neg hx]
        simpa using ih h1

theorem idxOf_append_left {lk : List Str} {s : Str} (h : s ∈ lk) (u : List Str) :
    idxOf (lk ++ u) s = idxOf lk s := by
  induction lk with
  | nil => simp at h
  | cons x t ih =>
    rw [List.cons_append, idxOf, idxOf]
    by_cases hx : x = s
    · simp [hx]
    · rcases List.mem_cons.mp h with h1 | h1
      · exact absurd h1.symm hx
      · rw [if_neg hx, if_neg hx, ih h1]

theorem idxOf_append_self {lk : List Str} {s : Str} (h : s ∉ lk) (u : List Str) :
    idxOf (lk ++ s :: u) s = lk.length := by
  induction lk with
  | nil => simp [idxOf]
  | cons x t ih =>
    rw [List.cons_append, idxOf]
    have hx : x ≠ s := fun hxs => h (hxs ▸ List.mem_cons_self x t)
    rw [if_neg hx, ih (fun hs => h (List.mem_cons_of_mem x hs))]
    rfl

theorem resolveRef_refToken (L : List Str) (i : Nat) (h : i < L.length) :
    resolveRef L (refToken i) = L.getD i [] := by
  have hcond : (0 : Int) ≤ (i : Int) ∧ (i : Int) < (L.length : Int) := by
    constructor
    · exact Int.natCast_nonneg i
    · exact_mod_cast h
  rw [refToken, resolveRef, pyParseInt_strOfNat]
  show (if (0 : Int) ≤ (i : Int) ∧ (i : Int) < (L.length : Int) then
      L.getD ((i : Int)).toNat [] else '~' :: strOfNat i) = L.getD i []
  rw [if_pos hcond]
  simp

/-- Prefix-extension chaining. -/
theorem append_ext_trans {a b c : List Str} (h1 : ∃ t, b = a ++ t)
    (h2 : ∃ u, c = b ++ u) : ∃ v, c = a ++ v := by
  obtain ⟨t, rfl⟩ := h1
  obtain ⟨u, rfl⟩ := h2
  exact ⟨t ++ u, by simp⟩

theorem mem_of_ext {a b : List Str} {s : Str} (h : ∃ t, b = a ++ t) (hs : s ∈ a) :
    s ∈ b := by
  obtain ⟨t, rfl⟩ := h
  exact List.mem_append_left t hs

/-- Specification of `_get_ref`: the table only grows by appending, the
interned string is in it, nothing else is added, distinctness is preserved,
and the returned token is the string's back-reference with respect to any
table extending the result. -/
theorem getRef_spec (lk : List Str) (s : Str) :
    (∃ t, (getRef lk s).2 = lk ++ t) ∧
    s ∈ (getRef lk s).2 ∧
    (∀ x, x ∈ (getRef lk s).2 → x ∈ lk ∨ x = s) ∧
    (lk.Nodup → (getRef lk s).2.Nodup) ∧
    (∀ L, (∃ u, L = (getRef lk s).2 ++ u) → (getRef lk s).1 = refToken (idxOf L s)) := by
  by_cases hmem : s ∈ lk
  · rw [getRef, if_pos hmem]
    refine ⟨⟨[], by simp⟩, hmem, fun x hx => Or.inl hx, fun h => h, ?_⟩
    rintro L ⟨u, rfl⟩
    show refToken (idxOf lk s) = refToken (idxOf (lk ++ u) s)
    rw [idxOf_append_left hmem]
  · rw [getRef, if_neg hmem]
    refine ⟨⟨[s], rfl⟩, by simp, ?_, ?_, ?_⟩
    · intro x hx
      rcases List.mem_append.mp hx with h | h
      · exact Or.inl h
      · simp at h
        exact Or.inr h
    · intro hnd
      simp [List.nodup_append, hnd, hmem]
    · rintro L ⟨u, rfl⟩
      show refToken lk.length = refToken (idxOf (lk ++ [s] ++ u) s)
      rw [List.append_assoc]
      show refToken lk.length = refToken (idxOf (lk ++ s :: u) s)
      rw [idxOf_append_self hmem]

mutual

/-- Master specification of the compressor, relative to a starting table:
the table grows by appending only; it ends up containing every string of
the value and nothing but old entries and strings of the value; it stays
duplicate-free; and the emitted structure is the value with every string
replaced by its back-reference into any table extending the final one. -/
theorem compress_spec (x : JVal) (lk : List Str) :
    (∃ t, (compress x lk).2 = lk ++ t) ∧
    (∀ s, s ∈ jstrings x → s ∈ (compress x lk).2) ∧
    (∀ s, s ∈ (compress x lk).2 → s ∈ lk ∨ s ∈ jstrings x) ∧
    (lk.Nodup → (compress x lk).2.Nodup) ∧
    (∀ L, (∃ u, L = (compress x lk).2 ++ u) → (compress x lk).1 = mapRef L x) := by
  cases x with
  | obj fs =>
    obtain ⟨h1, h2, h3, h4, h5⟩ := compressFields_spec fs lk
    exact ⟨h1, h2, h3, h4, fun L hL => congrArg JVal.obj (h5 L hL)⟩
  | arr xs =>
    obtain ⟨h1, h2, h3, h4, h5⟩ := compressArr_spec xs lk
    exact ⟨h1, h2, h3, h4, fun L hL => congrArg JVal.arr (h5 L hL)⟩
  | str s =>
    obtain ⟨g1, g2, g3, g4, g5⟩ := getRef_spec lk s
    refine ⟨g1, ?_, ?_, g4, ?_⟩
    · intro x hx
      simp only [jstrings, List.mem_singleton] at hx
      subst hx
      exact g2
    · intro x hx
      rcases g3 x hx with h | h
      · exact Or.inl h
      · right; simp [jstrings, h]
    · intro L hL
      exact congrArg JVal.str (g5 L hL)
  | num n =>
    exact ⟨⟨[], by simp [compress]⟩, by intro s hs; simp [jstrings] at hs,
      fun s hs => Or.inl hs, fun h => h, fun L hL => rfl⟩
  | jbool b =>
    exact ⟨⟨[], by simp [compress]⟩, by intro s hs; simp [jstrings] at hs,
      fun s hs => Or.inl hs, fun h => h, fun L hL => rfl⟩
  | null =>
    exact ⟨⟨[], by simp [compress]⟩, by intro s hs; simp [jstrings] at hs,
      fun s hs => Or.inl hs, fun h => h, fun L hL => rfl⟩

theorem compressFields_spec (fs : JFields) (lk : List Str) :
    (∃ t, (compressFields fs lk).2 = lk ++ t) ∧
    (∀ s, s ∈ fieldStrings fs → s ∈ (compressFields fs lk).2) ∧
    (∀ s, s ∈ (compressFields fs lk).2 → s ∈ lk ∨ s ∈ fieldStrings fs) ∧
    (lk.Nodup → (compressFields fs lk).2.Nodup) ∧
    (∀ L, (∃ u, L = (compressFields fs lk).2 ++ u) →
      (compressFields fs lk).1 = mapRefFields L fs) := by
  cases fs with
  | nil =>
    exact ⟨⟨[], by simp [compressFields]⟩, by intro s hs; simp [fieldStrings] at hs,
      fun s hs => Or.inl hs, fun h => h, fun L hL => rfl⟩
  | cons k v rest =>
    obtain ⟨g1, g2, g3, g4, g5⟩ := getRef_spec lk k
    obtain ⟨c1, c2, c3, c4, c5⟩ := compress_spec v (getRef lk k).2
    obtain ⟨f1, f2, f3, f4, f5⟩ :=
      compressFields_spec rest (compress v (getRef lk k).2).2
    refine ⟨?_, ?_, ?_, ?_, ?_⟩
    · exact append_ext_trans (append_ext_trans g1 c1) f1
    · intro s hs
      simp only [fieldStrings, List.mem_cons, List.mem_append] at hs
      rcases hs with rfl | hv | hr
      · exact mem_of_ext f1 (mem_of_ext c1 g2)
      · exact mem_of_ext f1 (c2 s hv)
      · exact f2 s hr
    · intro s hs
      rcases f3 s hs with h | h
      · rcases c3 s h with h1 | h1
        · rcases g3 s h1 with h2 | h2
          · exact Or.inl h2
          · right; simp [fieldStrings, h2]
        · right; simp [fieldStrings, h1]
      · right; simp [fieldStrings, h]
    · intro hnd
      exact f4 (c4 (g4 hnd))
    · intro L hL
      have hLrr : ∃ u, L = (compressFields rest (compress v (getRef lk k).2).2).2 ++ u := hL
      have hLrv : ∃ u, L = (compress v (getRef lk k).2).2 ++ u := append_ext_trans f1 hLrr
      have hLrk : ∃ u, L = (getRef lk k).2 ++ u := append_ext_trans c1 hLrv
      show JFields.cons (getRef lk k).1 (compress v (getRef lk k).2).1
          (compressFields rest (compress v (getRef lk k).2).2).1
        = mapRefFields L (.cons k v rest)
      rw [g5 L hLrk, c5 L hLrv, f5 L hLrr]
      rfl

theorem compressArr_spec (xs : JArr) (lk : List Str) :
    (∃ t, (compressArr xs lk).2 = lk ++ t) ∧
    (∀ s, s ∈ arrStrings xs → s ∈ (compressArr xs lk).2) ∧
    (∀ s, s ∈ (compressArr xs lk).2 → s ∈ lk ∨ s ∈ arrStrings xs) ∧
    (lk.Nodup → (compressArr xs lk).2.Nodup) ∧
    (∀ L, (∃ u, L = (compressArr xs lk).2 ++ u) →
      (compressArr xs lk).1 = mapRefArr L xs) := by
  cases xs with
  | nil =>
    exact ⟨⟨[], by simp [compressArr]⟩, by intro s hs; simp [arrStrings] at hs,
      fun s hs => Or.inl hs, fun h => h, fun L hL => rfl⟩
  | cons x rest =>
    obtain ⟨c1, c2, c3, c4, c5⟩ := compress_spec x lk
    obtain ⟨f1, f2, f3, f4, f5⟩ := compressArr_spec rest (compress x lk).2
    refine ⟨?_, ?_, ?_, ?_, ?_⟩
    · exact append_ext_trans c1 f1
    · intro s hs
      simp only [arrStrings, List.mem_append] at hs
      rcases hs with hv | hr
      · exact mem_of_ext f1 (c2 s hv)
      · exact f2 s hr
    · intro s hs
      rcases f3 s hs with h | h
      · rcases c3 s h with h1 | h1
        · exact Or.inl h1
        · right; simp [arrStrings, h1]
      · right; simp [arrStrings, h]
    · intro hnd
      exact f4 (c4 hnd)
    · intro L hL
      have hLrr : ∃ u, L = (compressArr rest (compress x lk).2).2 ++ u := hL
      have hLrv : ∃ u, L = (compress x lk).2 ++ u := append_ext_trans f1 hLrr
      show JArr.cons (compress x lk).1 (compressArr rest (compress x lk).2).1
        = mapRefArr L (.cons x rest)
      rw [c5 L hLrv, f5 L hLrr]
      rfl

end

mutual

/-- Decoding a fully back-referenced value against any table containing all
of its strings restores the value. -/
theorem decompress_mapRef (x : JVal) (L : List Str)
    (h : ∀ s ∈ jstrings x, s ∈ L) : decompress L (mapRef L x) = x := by
  cases x with
  | obj fs => exact congrArg JVal.obj (decompressFields_mapRef fs L h)
  | arr xs => exact congrArg JVal.arr (decompressArr_mapRef xs L h)
  | str s =>
    have hmem : s ∈ L := h s (by simp [jstrings])
    show JVal.str (resolveRef L (refToken (idxOf L s))) = JVal.str s
    rw [resolveRef_refToken L (idxOf L s) (idxOf_lt_length hmem), getD_idxOf hmem]
  | num n => rfl
  | jbool b => rfl
  | null => rfl

theorem decompressFields_mapRef (fs : JFields) (L : List Str)
    (h : ∀ s ∈ fieldStrings fs, s ∈ L) :
    decompressFields L (mapRefFields L fs) = fs := by
  cases fs with
  | nil => rfl
  | cons k v rest =>
    have hk : k ∈ L := h k (by simp [fieldStrings])
    have hv : ∀ s ∈ jstrings v, s ∈ L := fun s hs => h s (by simp [fieldStrings, hs])
    have hr : ∀ s ∈ fieldStrings rest, s ∈ L := fun s hs => h s (by simp [fieldStrings, hs])
    show JFields.cons (resolveRef L (refToken (idxOf L k))) (decompress L (mapRef L v))
        (decompressFields L (mapRefFields L rest)) = JFields.cons k v rest
    rw [resolveRef_refToken L (idxOf L k) (idxOf_lt_length hk), getD_idxOf hk,
      decompress_mapRef v L hv, decompressFields_mapRef rest L hr]

theorem decompressArr_mapRef (xs : JArr) (L : List Str)
    (h : ∀ s ∈ arrStrings xs, s ∈ L) :
    decompressArr L (mapRefArr L xs) = xs := by
  cases xs with
  | nil => rfl
  | cons x rest =>
    have hx : ∀ s ∈ jstrings x, s ∈ L := fun s hs => h s (by simp [arrStrings, hs])
    have hr : ∀ s ∈ arrStrings rest, s ∈ L := fun s hs => h s (by simp [arrStrings, hs])
    show JArr.cons (decompress L (mapRef L x)) (decompressArr L (mapRefArr L rest))
      = JArr.cons x rest
    rw [decompress_mapRef x L hx, decompressArr_mapRef rest L hr]

end

/-- The example value of the spec's scenario 3:
`{"a": "x", "b": "x", "c": {"a": "x"}}`. -/
def exToon : JVal :=
  .obj (.cons ['a'] (.str ['x'])
    (.cons ['b'] (.str ['x'])
      (.cons ['c'] (.obj (.cons ['a'] (.str ['x']) .nil)) .nil)))

/-- C2: decoding the payload produced by encoding any JSON-like value
returns the value itself — in particular for values containing literal
strings shaped like back-reference tokens, since every string (token-shaped
or not) is interned and decoded through its own dictionary slot. -/
theorem toon_roundtrip (x : JVal) :
    toonDecode (toonEncode x).2 (toonEncode x).1 = x := by
  obtain ⟨h1, h2, h3, h4, h5⟩ := compress_spec x []
  show decompress (compress x []).2 (compress x []).1 = x
  rw [h5 (compress x []).2 ⟨[], by simp⟩]
  exact decompress_mapRef x (compress x []).2 h2

/-- C8: encoding interns every distinct string (keys and values alike)
exactly once — the final lookup is duplicate-free and holds exactly the
strings of the input — and every occurrence in the emitted structure is the
back-reference of its string's lookup slot.  On the spec's example
`{"a": "x", "b": "x", "c": {"a": "x"}}` the lookup has exactly the four
entries "a", "x", "b", "c", with "x" referenced from three positions, and
decoding restores the original structure. -/
theorem toon_interning (x : JVal) :
    (toonEncode x).2.Nodup ∧
    (∀ s, s ∈ (toonEncode x).2 ↔ s ∈ jstrings x) ∧
    (toonEncode x).1 = mapRef (toonEncode x).2 x ∧
    (toonEncode exToon).2 = [['a'], ['x'], ['b'], ['c']] ∧
    (toonEncode exToon).1 =
      .obj (.cons (refToken 0) (.str (refToken 1))
        (.cons (refToken 2) (.str (refToken 1))
          (.cons (refToken 3) (.obj (.cons (refToken 0) (.str (refToken 1)) .nil)) .nil))) ∧
    toonDecode (toonEncode exToon).2 (toonEncode exToon).1 = exToon := by
  obtain ⟨h1, h2, h3, h4, h5⟩ := compress_spec x []
  refine ⟨h4 List.nodup_nil, ?_, h5 (compress x []).2 ⟨[], by simp⟩, rfl, rfl, rfl⟩
  intro s
  constructor
  · intro hs
    rcases h3 s hs with h | h
    · simp at h
    · exact h
  · exact h2 s

/-! ### Query refiner (`app/services/query_refiner.py`) -/

/-- The clause `re.sub` splices in front of the remainder of an existing
`WHERE`: `f"WHERE company_id = {company_id} AND "`. -/
def whereInjection (cid : Int) : Str :=
  "WHERE company_id = ".toList ++ strOfInt cid ++ " AND ".toList

/-- Does `s` start with a match of the regex `(?i)WHERE\s+`? -/
def startsWithWhereWs (s : Str) : Bool :=
  match s with
  | w :: h :: e1 :: r :: e2 :: c :: _ =>
    pyUpperChar w = 'W' && pyUpperChar h = 'H' && pyUpperChar e1 = 'E' &&
    pyUpperChar r = 'R' && pyUpperChar e2 = 'E' && isPySpace c
  | _ => false

/-- Drop a leading `(?i)WHERE\s+` match (the five letters and the maximal
whitespace run the greedy `\s+` consumes). -/
def dropWhereWs (s : Str) : Str :=
  match s with
  | _ :: _ :: _ :: _ :: _ :: rest => rest.dropWhile isPySpace
  | s => s

/-- `re.sub(r"(?i)WHERE\s+", repl, s, count=1)`: replace the leftmost match,
`none` when the pattern does not occur. -/
def subWhereOnce (repl : Str) : Str → Option Str
  | [] => none
  | c :: rest =>
    if startsWithWhereWs (c :: rest) then some (repl ++ dropWhereWs (c :: rest))
    else
      match subWhereOnce repl rest with
      | some s => some (c :: s)
      | none => none

/-- Whether `(?i)WHERE\s+` matches anywhere in `s`. -/
def hasWhereWs : Str → Bool
  | [] => false
  | c :: rest => startsWithWhereWs (c :: rest) || hasWhereWs rest

/-- `QueryRefinerService.apply_ironclad_heuristics`.  `resolved_persons` is
accepted and ignored exactly as in the source (the person guard was removed,
only the company security guard remains).  `company_id = none` models the
key being absent, and Python's `if company_id:` is false for `none` and for
`0`. -/
def apply_ironclad_heuristics (sql_query : Str)
    (resolved_persons : List (Str × List Int)) (company_id : Option Int) : Str :=
  if sql_query = [] ∨ ¬ containsStr (pyUpper sql_query) ("SELECT".toList) then sql_query
  else
    match company_id with
    | none => sql_query
    | some cid =>
      if cid = 0 then sql_query
      else if containsStr sql_query (strOfInt cid) then sql_query
      else if containsStr (pyUpper sql_query) ("WHERE".toList) then
        match subWhereOnce (whereInjection cid) sql_query with
        | some s => s
        | none => sql_query
      else sql_query ++ (" WHERE company_id = ".toList ++ strOfInt cid)

theorem subWhereOnce_of_hasWhereWs (repl : Str) (s : Str) (h : hasWhereWs s = true) :
    ∃ out pre post, subWhereOnce repl s = some out ∧ out = pre ++ repl ++ post := by
  induction s with
  | nil => simp [hasWhereWs] at h
  | cons c rest ih =>
    by_cases hs : startsWithWhereWs (c :: rest) = true
    · refine ⟨repl ++ dropWhereWs (c :: rest), [], dropWhereWs (c :: rest), ?_, by simp⟩
      rw [subWhereOnce, if_pos hs]
    · rw [hasWhereWs] at h
      have hr : hasWhereWs rest = true := by
        rcases Bool.or_eq_true_iff.mp h with h1 | h1
        · exact absurd h1 hs
        · exact h1
      obtain ⟨out, pre, post, h1, h2⟩ := ih hr
      refine ⟨c :: out, c :: pre, post, ?_, by simp [h2]⟩
      rw [subWhereOnce, if_neg hs, h1]

/-! ### SQL safety validator (`app/services/sql_validator.py`)

`sqlglot.parse_one` is an external library; a parse result is modelled as
`Option SqlAst` (`none` = the parse raised).  `walk` is sqlglot's
`Expression.walk`: the node itself followed by the walk of each child. -/

inductive SqlKind where
  | select | insert | update | drop | delete | alter | create | table | other
  deriving DecidableEq

mutual

inductive SqlAst where
  | mk (kind : SqlKind) (name : Str) (children : SqlAstList)

inductive SqlAstList where
  | nil
  | cons (head : SqlAst) (tail : SqlAstList)

end

def SqlAst.kindOf : SqlAst → SqlKind
  | .mk k _ _ => k

def SqlAst.nameOf : SqlAst → Str
  | .mk _ n _ => n

mutual

def walk : SqlAst → List SqlAst
  | .mk k n cs => .mk k n cs :: walkList cs

def walkList : SqlAstList → List SqlAst
  | .nil => []
  | .cons t ts => walk t ++ walkList ts

end

/-- `self.forbidden_commands = {exp.Drop, exp.Delete, exp.Alter, exp.Create}`
(Insert and Update were deliberately removed to allow actions). -/
def isForbidden : SqlKind → Bool
  | .drop => true
  | .delete => true
  | .alter => true
  | .create => true
  | _ => false

/-- `[t.name for t in parsed.find_all(exp.Table)]`. -/
def tableNames (t : SqlAst) : List Str :=
  ((walk t).filter (fun n => decide (n.kindOf = SqlKind.table))).map SqlAst.nameOf

/-- The constructor's `set(allowed_tables) if allowed_tables else None`:
an absent or empty allow-list is stored as `None`. -/
def mkAllowedTables (allowed_tables : Option (List Str)) : Option (List Str) :=
  match allowed_tables with
  | none => none
  | some l => if l = [] then none else some l

/-- The allow-list pass of `validate_sql`: skipped when `self.allowed_tables`
is falsy (absent, since the constructor never stores an empty set), otherwise
every referenced table must be in the list. -/
def allowedCheck (allowed : Option (List Str)) (t : SqlAst) : Bool :=
  match allowed with
  | none => true
  | some al => if al = [] then true else (tableNames t).all (fun tbl => decide (tbl ∈ al))

/-- `SQLValidatorService.validate_sql` applied to a parse result: parse
failure fails; a forbidden root or any forbidden node in the walk fails;
a configured (truthy) allow-list requires every referenced table in it. -/
def validateSqlParsed (allowed : Option (List Str)) (parsed : Option SqlAst) : Bool :=
  match parsed with
  | none => false
  | some t =>
    if isForbidden t.kindOf then false
    else if (walk t).any (fun n => isForbidden n.kindOf) then false
    else allowedCheck allowed t

theorem self_mem_walk (t : SqlAst) : t ∈ walk t := by
  cases t with
  | mk k n cs => rw [walk]; exact List.mem_cons_self _ _

/-- C3: the validator returns false on every parse failure and on every
statement whose walk contains a node of a destructive kind anywhere; under
a configured (nonempty) allow-list it returns false when some referenced
table is outside the list; and it returns true on statements with no
forbidden node whose tables (if an allow-list is configured) are all
allowed. -/
theorem validator_spec :
    (∀ al, validateSqlParsed al none = false) ∧
    (∀ al t n, n ∈ walk t → isForbidden n.kindOf = true →
      validateSqlParsed al (some t) = false) ∧
    (∀ (al : List Str) t tbl, al ≠ [] → tbl ∈ tableNames t → tbl ∉ al →
      validateSqlParsed (some al) (some t) = false) ∧
    (∀ al t, (∀ n ∈ walk t, isForbidden n.kindOf = false) →
      (∀ l, al = some l → l ≠ [] → ∀ tbl ∈ tableNames t, tbl ∈ l) →
      validateSqlParsed al (some t) = true) := by
  refine ⟨fun al => rfl, ?_, ?_, ?_⟩
  · intro al t n hn hforb
    show (if isForbidden t.kindOf then false
      else if (walk t).any (fun n => isForbidden n.kindOf) then false
      else allowedCheck al t) = false
    by_cases hroot : isForbidden t.kindOf = true
    · rw [if_pos hroot]
    · rw [if_neg hroot, if_pos (List.any_eq_true.mpr ⟨n, hn, hforb⟩)]
  · intro al t tbl hal htbl hout
    show (if isForbidden t.kindOf then false
      else if (walk t).any (fun n => isForbidden n.kindOf) then false
      else allowedCheck (some al) t) = false
    by_cases hroot : isForbidden t.kindOf = true
    · rw [if_pos hroot]
    · rw [if_neg hroot]
      by_cases hany : (walk t).any (fun n => isForbidden n.kindOf) = true
      · rw [if_pos hany]
      · rw [if_neg hany]
        show (if al = [] then true else (tableNames t).all (fun x => decide (x ∈ al))) = false
        rw [if_neg hal]
        cases hall : (tableNames t).all (fun x => decide (x ∈ al)) with
        | false => rfl
        | true =>
          exfalso
          exact hout (decide_eq_true_eq.mp (List.all_eq_true.mp hall tbl htbl))
  · intro al t hnone htbls
    show (if isForbidden t.kindOf then false
      else if (walk t).any (fun n => isForbidden n.kindOf) then false
      else allowedCheck al t) = true
    rw [if_neg (by rw [hnone t (self_mem_walk t)]; simp)]
    have hany : (walk t).any (fun n => isForbidden n.kindOf) = false := by
      rw [List.any_eq_false]
      intro n hn
      rw [hnone n hn]
      simp
    rw [if_neg (by rw [hany]; simp)]
    cases al with
    | none => rfl
    | some l =>
      show (if l = [] then true else (tableNames t).all (fun x => decide (x ∈ l))) = true
      by_cases hl : l = []
      · rw [if_pos hl]
      · rw [if_neg hl]
        rw [List.all_eq_true]
        intro tbl htbl
        exact decide_eq_true (htbls l rfl hl tbl htbl)

/-- A destructive statement: the parse tree of `DROP TABLE users`. -/
def exDropAst : SqlAst := .mk .drop [] (.cons (.mk .table ("users".toList) .nil) .nil)

/-- A benign statement: the parse tree of a `SELECT` over `tasks`. -/
def exSelectAst : SqlAst := .mk .select [] (.cons (.mk .table ("tasks".toList) .nil) .nil)

/-- Witness for C3: the drop tree is rejected, the select tree over an
allowed table is accepted. -/
theorem validator_spec_witness :
    validateSqlParsed none (some exDropAst) = false ∧
    validateSqlParsed (some ["tasks".toList]) (some exSelectAst) = true := by
  constructor
  · exact validator_spec.2.1 none exDropAst exDropAst (self_mem_walk exDropAst) (by decide)
  · refine validator_spec.2.2.2 (some ["tasks".toList]) exSelectAst (by decide) ?_
    intro l hl hne tbl htbl
    injection hl with hl
    subst hl
    revert tbl
    decide

/-- C1 (amended): the tenant guard's guarantee as the code gives it.  For a
nonempty statement that contains `SELECT` case-insensitively, whose every
`WHERE` occurrence (if any) is followed by whitespace, and a set, nonzero
tenant id, the refined statement text contains the tenant id literal:
either it was already present, or the guard injected the filter
(`WHERE company_id = <id> AND ...` into the first `WHERE`, or a new
` WHERE company_id = <id>` appended).  The guard is applied regardless of
the caller's role. -/
theorem refiner_injects_tenant_filter (sql : Str) (persons : List (Str × List Int))
    (cid : Int) (h0 : cid ≠ 0)
    (hsel : containsStr (pyUpper sql) ("SELECT".toList) = true)
    (hw : containsStr (pyUpper sql) ("WHERE".toList) = true → hasWhereWs sql = true) :
    containsStr (apply_ironclad_heuristics sql persons (some cid)) (strOfInt cid) = true := by
  have hne : sql ≠ [] := by
    rintro rfl
    simp [pyUpper, containsStr, startsWithStr] at hsel
  rw [apply_ironclad_heuristics, if_neg (by push_neg; exact ⟨hne, hsel⟩)]
  show containsStr
    (if cid = 0 then sql
    else if containsStr sql (strOfInt cid) then sql
    else if containsStr (pyUpper sql) ("WHERE".toList) then
      match subWhereOnce (whereInjection cid) sql with
      | some s => s
      | none => sql
    else sql ++ (" WHERE company_id = ".toList ++ strOfInt cid)) (strOfInt cid) = true
  rw [if_neg h0]
  by_cases hin : containsStr sql (strOfInt cid) = true
  · rw [if_pos hin]
    exact hin
  · rw [if_neg hin]
    by_cases hwh : containsStr (pyUpper sql) ("WHERE".toList) = true
    · rw [if_pos hwh]
      obtain ⟨out, pre, post, h1, h2⟩ :=
        subWhereOnce_of_hasWhereWs (whereInjection cid) sql (hw hwh)
      rw [h1, h2, containsStr_iff]
      exact ⟨pre ++ "WHERE company_id = ".toList, " AND ".toList ++ post,
        by simp [whereInjection]⟩
    · rw [if_neg hwh, containsStr_iff]
      exact ⟨sql ++ " WHERE company_id = ".toList, [], by simp⟩

/-- Witness for C1's amended theorem: a concrete `SELECT` with a `WHERE`
clause and tenant id 56942686 comes out containing the tenant literal. -/
theorem refiner_injects_tenant_filter_witness :
    containsStr (pyUpper ("SELECT * FROM tasks WHERE status = 1".toList)) ("SELECT".toList)
      = true ∧
    containsStr
      (apply_ironclad_heuristics ("SELECT * FROM tasks WHERE status = 1".toList)
        [] (some 56942686))
      (strOfInt 56942686) = true :=
  ⟨by decide,
   refiner_injects_tenant_filter ("SELECT * FROM tasks WHERE status = 1".toList)
     [] 56942686 (by decide) (by decide) (fun _ => by decide)⟩

/-- C1 counterexample: a synthesized statement with no `SELECT` — here an
`INSERT`, which the validator deliberately accepts — passes the refiner
unchanged for a non-privileged caller with tenant id 56942686 set, and the
accepted statement text does not contain the tenant id's filter (the guard
never looks at the caller's role at all). -/
theorem refiner_counterexample_no_select :
    apply_ironclad_heuristics ("INSERT INTO logs (note) VALUES (1)".toList)
        [] (some 56942686)
      = "INSERT INTO logs (note) VALUES (1)".toList ∧
    containsStr ("INSERT INTO logs (note) VALUES (1)".toList) (strOfInt 56942686) = false ∧
    validateSqlParsed none
      (some (.mk .insert [] (.cons (.mk .table ("logs".toList) .nil) .nil))) = true := by
  refine ⟨?_, by decide, by decide⟩
  decide

/-! ### Tenant-scoped cache key
(`GenerateSQLNode.run` line 128 and `SemanticCache.get`/`set`) -/

/-- `f"{company_id}:{db_user_id}:{user_role}:{input_text.strip().lower()}"`,
each metadata field rendered as its f-string text. -/
def cacheKeyStr (company_id db_user_id user_role input_text : Str) : Str :=
  company_id ++ ':' :: (db_user_id ++ ':' :: (user_role ++ ':' :: pyLower (pyStrip input_text)))

/-- The key the Redis store is actually addressed with:
`f"cache:{query.strip().lower()}"`. -/
def redisKey (query : Str) : Str := "cache:".toList ++ pyLower (pyStrip query)

theorem dropWhile_eq_self_of_head {s : Str}
    (h : ∀ c, s.head? = some c → isPySpace c = false) :
    s.dropWhile isPySpace = s := by
  cases s with
  | nil => rfl
  | cons c t =>
    rw [List.dropWhile_cons, if_neg]
    rw [h c rfl]
    simp

theorem head?_dropWhile {l : Str} {c : Char}
    (h : (l.dropWhile isPySpace).head? = some c) : isPySpace c = false := by
  induction l with
  | nil => simp [List.dropWhile] at h
  | cons x t ih =>
    rw [List.dropWhile_cons] at h
    by_cases hx : isPySpace x = true
    · rw [if_pos (by simp [hx])] at h
      exact ih h
    · rw [if_neg (by simp at hx; simp [hx])] at h
      simp only [List.head?_cons, Option.some.injEq] at h
      subst h
      simpa using hx

theorem pyStrip_eq_self {s : Str}
    (hh : ∀ c, s.head? = some c → isPySpace c = false)
    (hl : ∀ c, s.getLast? = some c → isPySpace c = false) :
    pyStrip s = s := by
  rw [pyStrip, dropWhile_eq_self_of_head hh, dropWhile_eq_self_of_head, List.reverse_reverse]
  intro c hc
  rw [List.head?_reverse] at hc
  exact hl c hc

theorem pyStrip_getLast {q : Str} :
    ∀ c, (pyStrip q).getLast? = some c → isPySpace c = false := by
  intro c hc
  rw [pyStrip, List.getLast?_reverse] at hc
  exact head?_dropWhile hc

theorem colon_join_inj {a1 a2 t1 t2 : Str} (h1 : ':' ∉ a1) (h2 : ':' ∉ a2)
    (he : a1 ++ ':' :: t1 = a2 ++ ':' :: t2) : a1 = a2 ∧ t1 = t2 := by
  induction a1 generalizing a2 with
  | nil =>
    cases a2 with
    | nil => simpa using he
    | cons y ys =>
      injection he with hhead _
      exact absurd hhead (List.ne_of_not_mem_cons h2)
  | cons x xs ih =>
    cases a2 with
    | nil =>
      injection he with hhead _
      exact absurd hhead.symm (List.ne_of_not_mem_cons h1)
    | cons y ys =>
      injection he with hhead htail
      obtain ⟨hA, hT⟩ := ih (fun hm => h1 (List.mem_cons_of_mem x hm))
        (fun hm => h2 (List.mem_cons_of_mem y hm)) htail
      exact ⟨by rw [hhead, hA], hT⟩

theorem pyLowerChar_colon : pyLowerChar ':' = ':' := rfl

theorem pyLower_getLast {l : Str} :
    (pyLower l).getLast? = l.getLast?.map pyLowerChar := by
  rw [pyLower, ← List.head?_reverse, ← List.map_reverse, List.head?_map, List.head?_reverse]

theorem pyLowerStrip_getLast (q : Str) :
    ∀ ch, (pyLower (pyStrip q)).getLast? = some ch → isPySpace ch = false := by
  intro ch hch
  rw [pyLower_getLast] at hch
  rcases Option.map_eq_some'.mp hch with ⟨ch0, h0, h1⟩
  subst h1
  rw [isPySpace_pyLowerChar]
  exact pyStrip_getLast ch0 h0

theorem cacheKey_head {c rest : Str}
    (hh : ∀ ch, c.head? = some ch → isPySpace ch = false) :
    ∀ ch, (c ++ ':' :: rest).head? = some ch → isPySpace ch = false := by
  intro ch hch
  cases c with
  | nil =>
    simp only [List.nil_append, List.head?_cons, Option.some.injEq] at hch
    subst hch
    decide
  | cons x t =>
    simp only [List.cons_append, List.head?_cons, Option.some.injEq] at hch
    subst hch
    exact hh x rfl

theorem cacheKey_getLast (c u r q : Str) :
    ∀ ch, (c ++ ':' :: (u ++ ':' :: (r ++ ':' :: pyLower (pyStrip q)))).getLast? = some ch →
      isPySpace ch = false := by
  intro ch hch
  rw [List.getLast?_append_cons, ← List.cons_append, List.getLast?_append_cons,
    ← List.cons_append, List.getLast?_append_cons] at hch
  cases hq : pyLower (pyStrip q) with
  | nil =>
    rw [hq] at hch
    simp only [List.getLast?_singleton, Option.some.injEq] at hch
    subst hch
    decide
  | cons y t =>
    rw [hq, List.getLast?_cons_cons] at hch
    exact pyLowerStrip_getLast q ch (by rw [hq]; exact hch)

/-- C5 (amended): the cache key separates two requests with the same query
text whose tenant id, user id or role still differ after per-field
lowercasing, provided the rendered fields are colon-free and the tenant id
does not start with whitespace.  (Equality of the stored key forces
case-folded equality of all three fields; it does not force raw equality,
and colons inside fields can shift the boundaries — see the
counterexample.) -/
theorem cacheKey_isolation (c1 u1 r1 c2 u2 r2 q : Str)
    (hc1 : ':' ∉ pyLower c1) (hu1 : ':' ∉ pyLower u1) (hr1 : ':' ∉ pyLower r1)
    (hc2 : ':' ∉ pyLower c2) (hu2 : ':' ∉ pyLower u2) (hr2 : ':' ∉ pyLower r2)
    (hh1 : ∀ ch, c1.head? = some ch → isPySpace ch = false)
    (hh2 : ∀ ch, c2.head? = some ch → isPySpace ch = false)
    (hne : ¬ (pyLower c1 = pyLower c2 ∧ pyLower u1 = pyLower u2 ∧ pyLower r1 = pyLower r2)) :
    redisKey (cacheKeyStr c1 u1 r1 q) ≠ redisKey (cacheKeyStr c2 u2 r2 q) := by
  intro heq
  apply hne
  rw [redisKey, redisKey, cacheKeyStr, cacheKeyStr] at heq
  have heq2 := List.append_cancel_left heq
  rw [pyStrip_eq_self (cacheKey_head hh1) (cacheKey_getLast c1 u1 r1 q),
    pyStrip_eq_self (cacheKey_head hh2) (cacheKey_getLast c2 u2 r2 q)] at heq2
  simp only [pyLower, List.map_append, List.map_cons, pyLowerChar_colon] at heq2
  obtain ⟨e1, hrest1⟩ := colon_join_inj hc1 hc2 heq2
  obtain ⟨e2, hrest2⟩ := colon_join_inj hu1 hu2 hrest1
  obtain ⟨e3, _⟩ := colon_join_inj hr1 hr2 hrest2
  exact ⟨e1, e2, e3⟩

/-- Witness for C5's amended theorem: tenant 7 and tenant 8, same user,
role and query, produce different store keys. -/
theorem cacheKey_isolation_witness :
    redisKey (cacheKeyStr ("7".toList) ("u1".toList) ("admin".toList) ("List tasks".toList))
      ≠ redisKey (cacheKeyStr ("8".toList) ("u1".toList) ("admin".toList)
          ("List tasks".toList)) :=
  cacheKey_isolation ("7".toList) ("u1".toList) ("admin".toList)
    ("8".toList) ("u1".toList) ("admin".toList) ("List tasks".toList)
    (by decide) (by decide) (by decide) (by decide) (by decide) (by decide)
    (by decide) (by decide) (by decide)

/-- C5 counterexample: two requests identical except for the role string —
"Admin" versus "admin", two different role values — are read and written
under the very same store key, because `SemanticCache` lowercases the whole
composite key.  So differing role (or user id, or tenant id) does not by
itself prevent a shared cache entry. -/
theorem cacheKey_counterexample :
    ¬ ("Admin".toList = "admin".toList) ∧
    redisKey (cacheKeyStr ("7".toList) ("u1".toList) ("Admin".toList) ("List tasks".toList))
      = redisKey (cacheKeyStr ("7".toList) ("u1".toList) ("admin".toList)
          ("List tasks".toList)) :=
  ⟨by decide, by decide⟩

/-! ### Person-name resolver (`app/services/person_resolver_service.py`) -/

/-- `name.strip("',\"")`: strip the three characters from both ends. -/
def isNameQuote (c : Char) : Bool := c = '\'' || c = ',' || c = '"'

def stripNameQuotes (s : Str) : Str :=
  ((s.dropWhile isNameQuote).reverse.dropWhile isNameQuote).reverse

/-- Python dict assignment `resolved[name] = ids` on an insertion-ordered
association list: overwrite in place, else append. -/
def dictSet (m : List (Str × List Int)) (k : Str) (v : List Int) : List (Str × List Int) :=
  if m.any (fun p => decide (p.1 = k)) then
    m.map (fun p => if p.1 = k then (k, v) else p)
  else m ++ [(k, v)]

/-- The loop body of `resolve_person_to_ids` over the LLM-extracted
candidate `names`: reject (continue) any name that is not a
case-insensitive substring of the query; look the survivors up (the
tenant-scoped `LIKE` query is the external oracle `dbLookup`, fed the
quote-stripped name and returning at most 5 ids); record non-empty id
lists under the original name. -/
def resolvePersonLoop (query : Str) (names : List Str) (dbLookup : Str → List Int) :
    List (Str × List Int) :=
  names.foldl (fun resolved name =>
    if ¬ containsStr (pyLower query) (pyLower name) then resolved
    else
      let ids := dbLookup (stripNameQuotes name)
      if ids = [] then resolved else dictSet resolved name ids) []

/-- `resolve_person_to_ids` whole-function result: the surrounding
`try`/`except` returns the empty mapping on any extraction, parse or
lookup failure (`failed`), including a non-list reply. -/
def resolvePersonToIds (failed : Bool) (query : Str) (names : List Str)
    (dbLookup : Str → List Int) : List (Str × List Int) :=
  if failed then [] else resolvePersonLoop query names dbLookup

theorem dictSet_key_mem {m : List (Str × List Int)} {k : Str} {v : List Int}
    {p : Str × List Int} (hp : p ∈ dictSet m k v) :
    p.1 = k ∨ ∃ w, (p.1, w) ∈ m := by
  rw [dictSet] at hp
  by_cases hany : m.any (fun p => decide (p.1 = k)) = true
  · rw [if_pos hany] at hp
    rcases List.mem_map.mp hp with ⟨q, hq, hmap⟩
    by_cases hqk : q.1 = k
    · rw [if_pos hqk] at hmap
      left
      rw [← hmap]
    · rw [if_neg hqk] at hmap
      right
      refine ⟨q.2, ?_⟩
      rw [← hmap]
      exact hq
  · rw [if_neg hany] at hp
    rcases List.mem_append.mp hp with h | h
    · right
      exact ⟨p.2, h⟩
    · left
      simp only [List.mem_singleton] at h
      rw [h]

theorem resolvePersonLoop_keys (query : Str) (names : List Str)
    (dbLookup : Str → List Int) :
    ∀ p ∈ resolvePersonLoop query names dbLookup,
      containsStr (pyLower query) (pyLower p.1) = true := by
  rw [resolvePersonLoop]
  suffices h : ∀ acc, (∀ p ∈ acc, containsStr (pyLower query) (pyLower p.1) = true) →
      ∀ p ∈ names.foldl (fun resolved name =>
        if ¬ containsStr (pyLower query) (pyLower name) then resolved
        else
          let ids := dbLookup (stripNameQuotes name)
          if ids = [] then resolved else dictSet resolved name ids) acc,
        containsStr (pyLower query) (pyLower p.1) = true by
    exact h [] (by intro p hp; simp at hp)
  induction names with
  | nil =>
    intro acc hacc p hp
    exact hacc p hp
  | cons name rest ih =>
    intro acc hacc p hp
    rw [List.foldl_cons] at hp
    by_cases hname : containsStr (pyLower query) (pyLower name) = true
    · rw [if_neg (by rw [hname]; simp)] at hp
      by_cases hids : dbLookup (stripNameQuotes name) = []
      · rw [if_pos hids] at hp
        exact ih acc hacc p hp
      · rw [if_neg hids] at hp
        refine ih (dictSet acc name (dbLookup (stripNameQuotes name))) ?_ p hp
        intro q hq
        rcases dictSet_key_mem hq with h | ⟨w, hw⟩
        · rw [h]
          exact hname
        · exact hacc (q.1, w) hw
    · rw [if_pos (by rw [Bool.not_eq_true] at hname; rw [hname]; simp)] at hp
      exact ih acc hacc p hp

/-- C9: the resolver never returns a mapping entry whose name is not a
case-insensitive substring of the original query text, and any extraction,
parse or lookup failure yields the empty mapping rather than an error. -/
theorem resolver_guardrail (failed : Bool) (query : Str) (names : List Str)
    (dbLookup : Str → List Int) :
    (failed = true → resolvePersonToIds failed query names dbLookup = []) ∧
    (∀ name ids, (name, ids) ∈ resolvePersonToIds failed query names dbLookup →
      containsStr (pyLower query) (pyLower name) = true) := by
  constructor
  · intro hf
    rw [resolvePersonToIds, if_pos hf]
  · intro name ids hmem
    rw [resolvePersonToIds] at hmem
    by_cases hf : failed = true
    · rw [if_pos hf] at hmem
      simp at hmem
    · rw [if_neg hf] at hmem
      exact resolvePersonLoop_keys query names dbLookup (name, ids) hmem

/-- Witness for C9: with a stub lookup returning ids 1 and 2, the candidate
"Soban" — present in the query — is returned and is indeed a
case-insensitive substring; the failure path returns the empty map. -/
theorem resolver_guardrail_witness :
    resolvePersonToIds true ("List tasks for Soban".toList) ["Soban".toList]
      (fun _ => [1, 2]) = [] ∧
    containsStr (pyLower ("List tasks for Soban".toList)) (pyLower ("Soban".toList)) = true :=
  ⟨(resolver_guardrail true ("List tasks for Soban".toList) ["Soban".toList]
      (fun _ => [1, 2])).1 rfl,
   (resolver_guardrail false ("List tasks for Soban".toList) ["Soban".toList]
      (fun _ => [1, 2])).2 ("Soban".toList) [1, 2] (by decide)⟩

/-! ### Self-correction state machine
(`app/workflow/graph.py` with `nodes/sql_node.py`, `nodes/validation_node.py`,
`nodes/execution_node.py`, `nodes/response_node.py`)

`AgentState` is a plain LangGraph `TypedDict`: every channel is
last-value-wins, and a node's returned partial dict overwrites exactly the
keys it mentions.  The LLM reply, the cache store and the database are
external collaborators, so the generation outcome, the cached statement and
the execution outcome are oracle inputs of the step relation;
`sqlglot.parse_one` is the oracle `parse` as in the validator section.  The
request-scoped metadata (`company_id`, resolved persons) is fixed for the
request.  `gens`, `execs` and `cacheWrites` are ghost counters of
synthesizer invocations, actually executed statements and cache writes. -/

inductive Node where
  | generate_sql
  | validate_sql
  | execute_sql
  | generate_response
  | terminal
  deriving DecidableEq

structure PState where
  node : Node
  messages : List Str
  sql_query : Option Str
  error : Option Str
  retry_count : Nat
  from_cache : Bool
  gens : Nat
  execs : Nat
  cacheWrites : Nat

/-- The no-op sentinel `"SKIP"`. -/
def skipSentinel : Str := "SKIP".toList

def dbErrMsg : Str := "Database connection not configured.".toList

def valErrMsg : Str :=
  "SQL Query violated safety policy (destructive command or forbidden table).".toList

/-- `f"I encountered an error processing your request: {state['error']}"`,
the part before the error text. -/
def errPrefixMsg : Str := "I encountered an error processing your request: ".toList

/-- The environment-determined outcome of one `GenerateSQLNode.run` call:
no database url configured; a cache hit (first attempt only); a "text"
(clarification) reply; or a "sql" reply with the raw statement `q`. -/
inductive GenOutcome where
  | dbMissing
  | cacheHit (sql : Str)
  | textOut (t : Str)
  | sqlOut (q : Str)

/-- The state update `GenerateSQLNode.run` returns, merged into the state:
`{"error": ...}` on a missing database url; `{"sql_query": cached,
"retry_count": 0, "error": None, "from_cache": True}` on a cache hit;
`{"sql_query": "SKIP", "messages": [text], "retry_count": 0}` on a text
outcome (the error key is NOT in this update, so a previously set error
survives); and on a sql outcome the refined statement with
`retry_count + 1`, cached only when the statement is truthy and no error
was set on entry. -/
def genNode (cid : Option Int) (persons : List (Str × List Int))
    (o : GenOutcome) (s : PState) : PState :=
  match o with
  | .dbMissing => { s with error := some dbErrMsg, gens := s.gens + 1 }
  | .cacheHit q =>
    { s with sql_query := some q, retry_count := 0, error := none,
             from_cache := true, gens := s.gens + 1 }
  | .textOut t =>
    { s with sql_query := some skipSentinel, messages := [t], retry_count := 0,
             gens := s.gens + 1 }
  | .sqlOut q =>
    let q2 := apply_ironclad_heuristics q persons cid
    { s with sql_query := some q2,
             retry_count := s.retry_count + 1,
             cacheWrites := s.cacheWrites + (if q2 ≠ [] ∧ s.error = none then 1 else 0),
             gens := s.gens + 1 }

/-- `after_generation`: `END` when the sentinel was set, else validation. -/
def routeAfterGen (s : PState) : PState :=
  { s with node := if s.sql_query = some skipSentinel then .terminal else .validate_sql }

/-- `ValidateSQLNode.run`: missing, empty or sentinel statements clear the
error; otherwise the validator verdict decides between clearing the error
and setting it while incrementing the retry count. -/
def validateNode (verdict : Str → Bool) (s : PState) : PState :=
  match s.sql_query with
  | none => { s with error := none }
  | some q =>
    if q = [] ∨ q = skipSentinel then { s with error := none }
    else if verdict q then { s with error := none }
    else { s with error := some valErrMsg, retry_count := s.retry_count + 1 }

/-- `after_validation`. -/
def routeAfterValidation (s : PState) : PState :=
  { s with node :=
      if s.error.isSome then
        if s.retry_count < 3 then .generate_sql else .generate_response
      else .execute_sql }

inductive ExecOutcome where
  | ok
  | fail (msg : Str)

/-- `ExecuteSQLNode.run`: skipped (`{}` update) when an error is set or the
statement is missing/empty/the sentinel; a successful execution clears the
error and resets the retry count; a raised exception records its text and
increments the retry count.  (Row materialisation, pagination and the
compression metrics are observability the claims do not touch.) -/
def execNode (o : ExecOutcome) (s : PState) : PState :=
  if s.error.isSome then s
  else
    match s.sql_query with
    | none => s
    | some q =>
      if q = [] ∨ q = skipSentinel then s
      else
        match o with
        | .ok => { s with error := none, retry_count := 0, execs := s.execs + 1 }
        | .fail m =>
          { s with error := some m, retry_count := s.retry_count + 1,
                   execs := s.execs + 1 }

/-- `after_execution`. -/
def routeAfterExecution (s : PState) : PState :=
  { s with node :=
      if s.error.isSome then
        if s.retry_count < 3 then .generate_sql else .generate_response
      else .generate_response }

/-- `ResponseNode.run` followed by the unconditional edge to `END`: with an
error set, the fixed apology embedding the error text; otherwise the LLM
phrasing `t`. -/
def respondNode (t : Str) (s : PState) : PState :=
  { s with node := .terminal,
           messages := if s.error.isSome then [errPrefixMsg ++ s.error.getD []] else [t] }

/-- `if retry_count == 0: cached = await get(...); if cached and "SKIP" not
in cached:` — the side conditions under which a cache hit outcome is
possible. -/
def cacheHitOk : GenOutcome → PState → Prop
  | .cacheHit q, s => s.retry_count = 0 ∧ q ≠ [] ∧ containsStr q skipSentinel = false
  | _, _ => True

/-- One transition of the compiled graph: run the node the state is at
(with its oracle outcome) and follow the conditional edge on the merged
state. -/
inductive Step (parse : Str → Option SqlAst) (cid : Option Int)
    (persons : List (Str × List Int)) : PState → PState → Prop where
  | gen (o : GenOutcome) (s : PState) (hn : s.node = .generate_sql)
      (hok : cacheHitOk o s) :
      Step parse cid persons s (routeAfterGen (genNode cid persons o s))
  | validate (s : PState) (hn : s.node = .validate_sql) :
      Step parse cid persons s
        (routeAfterValidation
          (validateNode (fun q => validateSqlParsed none (parse q)) s))
  | execute (o : ExecOutcome) (s : PState) (hn : s.node = .execute_sql) :
      Step parse cid persons s (routeAfterExecution (execNode o s))
  | respond (t : Str) (s : PState) (hn : s.node = .generate_response) :
      Step parse cid persons s (respondNode t s)

def Reachable (parse : Str → Option SqlAst) (cid : Option Int)
    (persons : List (Str × List Int)) : PState → PState → Prop :=
  Relation.ReflTransGen (Step parse cid persons)

/-- Entry into the SQL branch: `chat_service` seeds `retry_count: 0`, and
`sql_query`/`error` are unset. -/
def initState (msgs : List Str) : PState :=
  { node := .generate_sql, messages := msgs, sql_query := none, error := none,
    retry_count := 0, from_cache := false, gens := 0, execs := 0, cacheWrites := 0 }

/-- No step leaves the terminal state. -/
theorem terminal_no_step {parse : Str → Option SqlAst} {cid : Option Int}
    {persons : List (Str × List Int)} {s s2 : PState} (h : s.node = .terminal) :
    ¬ Step parse cid persons s s2 := by
  intro hstep
  cases hstep with
  | gen o s hn hok => rw [h] at hn; exact absurd hn (by decide)
  | validate s hn => rw [h] at hn; exact absurd hn (by decide)
  | execute o s hn => rw [h] at hn; exact absurd hn (by decide)
  | respond t s hn => rw [h] at hn; exact absurd hn (by decide)

/-- Inductive invariant for the retry bound: the synthesizer has run at most
3 times; on entry to the synthesizer it has run at most twice and no more
often than `retry_count`; at validation/execution it has run at most
`retry_count + 1`; execution is only ever entered with the error cleared. -/
def StepInv (s : PState) : Prop :=
  s.gens ≤ 3 ∧
  (s.node = .generate_sql → s.gens ≤ 2 ∧ s.gens ≤ s.retry_count) ∧
  ((s.node = .validate_sql ∨ s.node = .execute_sql) → s.gens ≤ s.retry_count + 1) ∧
  (s.node = .execute_sql → s.error = none)

theorem routeAfterGen_node (x : PState) :
    (routeAfterGen x).node = .terminal ∨ (routeAfterGen x).node = .validate_sql := by
  simp only [routeAfterGen]
  split
  · exact Or.inl rfl
  · exact Or.inr rfl

theorem routeAfterGen_node_of_skip {x : PState} (h : x.sql_query = some skipSentinel) :
    (routeAfterGen x).node = .terminal := by
  simp [routeAfterGen, h]

theorem step_preserves_inv {parse : Str → Option SqlAst} {cid : Option Int}
    {persons : List (Str × List Int)} {s s2 : PState}
    (hs : StepInv s) (hstep : Step parse cid persons s s2) : StepInv s2 := by
  obtain ⟨hg3, hgen, hve, hexec⟩ := hs
  cases hstep with
  | gen o s hn hok =>
    obtain ⟨hg2, hgrc⟩ := hgen hn
    have hnode := routeAfterGen_node (genNode cid persons o s)
    have hno_gen : (routeAfterGen (genNode cid persons o s)).node ≠ .generate_sql := by
      rcases hnode with h2 | h2 <;> rw [h2] <;> decide
    have hno_exec : (routeAfterGen (genNode cid persons o s)).node ≠ .execute_sql := by
      rcases hnode with h2 | h2 <;> rw [h2] <;> decide
    refine ⟨?_, fun h => absurd h hno_gen, ?_, fun h => absurd h hno_exec⟩
    · cases o <;> simp [routeAfterGen, genNode] <;> omega
    · intro h
      rcases h with h | h
      swap
      · exact absurd h hno_exec
      · cases o with
        | dbMissing => simp [routeAfterGen, genNode]; omega
        | cacheHit q =>
          obtain ⟨hrc0, _, _⟩ := hok
          simp [routeAfterGen, genNode]
          omega
        | textOut t =>
          exfalso
          have hterm : (routeAfterGen (genNode cid persons (.textOut t) s)).node
              = .terminal := routeAfterGen_node_of_skip rfl
          rw [hterm] at h
          exact absurd h (by decide)
        | sqlOut q => simp [routeAfterGen, genNode]; omega
  | validate s hn =>
    have hle : s.gens ≤ s.retry_count + 1 := hve (Or.inl hn)
    have hclear : ∀ x : PState, x.error = none →
        ((routeAfterValidation x).node = .execute_sql ∧
         (routeAfterValidation x).error = none) := by
      intro x hx
      constructor
      · simp [routeAfterValidation, hx]
      · simp [routeAfterValidation, hx]
    rcases hsql : s.sql_query with _ | q
    · have hred : validateNode (fun q => validateSqlParsed none (parse q)) s
          = { s with error := none } := by
        simp [validateNode, hsql]
      rw [hred]
      obtain ⟨hnd, hne⟩ := hclear { s with error := none } rfl
      refine ⟨by simpa [routeAfterValidation] using hg3, ?_, ?_, fun _ => hne⟩
      · intro h
        rw [hnd] at h
        exact absurd h (by decide)
      · intro _
        simpa [routeAfterValidation] using hle
    · by_cases hqe : q = [] ∨ q = skipSentinel
      · have hred : validateNode (fun q => validateSqlParsed none (parse q)) s
            = { s with error := none } := by
          simp only [validateNode, hsql]
          rw [if_pos hqe]
        rw [hred]
        obtain ⟨hnd, hne⟩ := hclear { s with error := none } rfl
        refine ⟨by simpa [routeAfterValidation] using hg3, ?_, ?_, fun _ => hne⟩
        · intro h
          rw [hnd] at h
          exact absurd h (by decide)
        · intro _
          simpa [routeAfterValidation] using hle
      · by_cases hv : validateSqlParsed none (parse q) = true
        · have hred : validateNode (fun q => validateSqlParsed none (parse q)) s
              = { s with error := none } := by
            simp only [validateNode, hsql]
            rw [if_neg hqe, if_pos hv]
          rw [hred]
          obtain ⟨hnd, hne⟩ := hclear { s with error := none } rfl
          refine ⟨by simpa [routeAfterValidation] using hg3, ?_, ?_, fun _ => hne⟩
          · intro h
            rw [hnd] at h
            exact absurd h (by decide)
          · intro _
            simpa [routeAfterValidation] using hle
        · have hred : validateNode (fun q => validateSqlParsed none (parse q)) s
              = { s with error := some valErrMsg, retry_count := s.retry_count + 1 } := by
            simp only [validateNode, hsql]
            rw [if_neg hqe, if_neg hv]
          rw [hred]
          by_cases hrc : s.retry_count + 1 < 3
          · have hnd : (routeAfterValidation { s with error := some valErrMsg, retry_count := s.retry_count + 1 }).node = .generate_sql := by
              simp [routeAfterValidation, hrc]
            refine ⟨by simpa [routeAfterValidation] using hg3, ?_, ?_, ?_⟩
            · intro _
              simp only [routeAfterValidation]
              constructor <;> omega
            · intro h
              rcases h with h | h <;> rw [hnd] at h <;> exact absurd h (by decide)
            · intro h
              rw [hnd] at h
              exact absurd h (by decide)
          · have hnd : (routeAfterValidation { s with error := some valErrMsg, retry_count := s.retry_count + 1 }).node = .generate_response := by
              simp [routeAfterValidation, hrc]
            refine ⟨by simpa [routeAfterValidation] using hg3, ?_, ?_, ?_⟩
            · intro h
              rw [hnd] at h
              exact absurd h (by decide)
            · intro h
              rcases h with h | h <;> rw [hnd] at h <;> exact absurd h (by decide)
            · intro h
              rw [hnd] at h
              exact absurd h (by decide)
  | execute o s hn =>
    have hle : s.gens ≤ s.retry_count + 1 := hve (Or.inr hn)
    have herr : s.error = none := hexec hn
    have hresp : ∀ x : PState, x.error = none →
        (routeAfterExecution x).node = .generate_response := by
      intro x hx
      simp [routeAfterExecution, hx]
    have hskip_inv : StepInv (routeAfterExecution s) := by
      have hnd := hresp s herr
      refine ⟨by simpa [routeAfterExecution] using hg3, ?_, ?_, ?_⟩
      · intro h
        rw [hnd] at h
        exact absurd h (by decide)
      · intro h
        rcases h with h | h <;> rw [hnd] at h <;> exact absurd h (by decide)
      · intro h
        rw [hnd] at h
        exact absurd h (by decide)
    rcases hsql : s.sql_query with _ | q
    · have hred : execNode o s = s := by
        simp [execNode, herr, hsql]
      rw [hred]
      exact hskip_inv
    · by_cases hqe : q = [] ∨ q = skipSentinel
      · have hred : execNode o s = s := by
          simp only [execNode, herr, hsql, Option.isSome_none, Bool.false_eq_true,
            if_false]
          rw [if_pos hqe]
        rw [hred]
        exact hskip_inv
      · cases o with
        | ok =>
          have hred : execNode .ok s
              = { s with error := none, retry_count := 0, execs := s.execs + 1 } := by
            simp only [execNode, herr, hsql, Option.isSome_none, Bool.false_eq_true,
              if_false]
            rw [if_neg hqe]
          rw [hred]
          have hnd := hresp { s with error := none, retry_count := 0, execs := s.execs + 1 } rfl
          refine ⟨by simpa [routeAfterExecution] using hg3, ?_, ?_, ?_⟩
          · intro h
            rw [hnd] at h
            exact absurd h (by decide)
          · intro h
            rcases h with h | h <;> rw [hnd] at h <;> exact absurd h (by decide)
          · intro h
            rw [hnd] at h
            exact absurd h (by decide)
        | fail m =>
          have hred : execNode (.fail m) s
              = { s with error := some m, retry_count := s.retry_count + 1,
                         execs := s.execs + 1 } := by
            simp only [execNode, herr, hsql, Option.isSome_none, Bool.false_eq_true,
              if_false]
            rw [if_neg hqe]
          rw [hred]
          by_cases hrc : s.retry_count + 1 < 3
          · have hnd : (routeAfterExecution { s with error := some m, retry_count := s.retry_count + 1, execs := s.execs + 1 }).node = .generate_sql := by
              simp [routeAfterExecution, hrc]
            refine ⟨by simpa [routeAfterExecution] using hg3, ?_, ?_, ?_⟩
            · intro _
              simp only [routeAfterExecution]
              constructor <;> omega
            · intro h
              rcases h with h | h <;> rw [hnd] at h <;> exact absurd h (by decide)
            · intro h
              rw [hnd] at h
              exact absurd h (by decide)
          · have hnd : (routeAfterExecution { s with error := some m, retry_count := s.retry_count + 1, execs := s.execs + 1 }).node = .generate_response := by
              simp [routeAfterExecution, hrc]
            refine ⟨by simpa [routeAfterExecution] using hg3, ?_, ?_, ?_⟩
            · intro h
              rw [hnd] at h
              exact absurd h (by decide)
            · intro h
              rcases h with h | h <;> rw [hnd] at h <;> exact absurd h (by decide)
            · intro h
              rw [hnd] at h
              exact absurd h (by decide)
  | respond t s hn =>
    have hnd : (respondNode t s).node = .terminal := by simp [respondNode]
    refine ⟨by simpa [respondNode] using hg3, ?_, ?_, ?_⟩
    · intro h
      rw [hnd] at h
      exact absurd h (by decide)
    · intro h
      rcases h with h | h <;> rw [hnd] at h <;> exact absurd h (by decide)
    · intro h
      rw [hnd] at h
      exact absurd h (by decide)

/-- C4: for one request, however often validation or execution fails, the
synthesizer node runs at most `max_retries + 1 = 4` times: both retry gates
loop back only while `retry_count < 3`, every failed attempt increments the
count, and generation itself increments it on every sql outcome, so every
state reachable from the entry of the SQL branch has at most 4 (in fact at
most 3) synthesizer invocations. -/
theorem retry_bound (parse : Str → Option SqlAst) (cid : Option Int)
    (persons : List (Str × List Int)) (msgs : List Str) (s : PState)
    (h : Reachable parse cid persons (initState msgs) s) : s.gens ≤ 4 := by
  have hinv : StepInv s := by
    induction h with
    | refl =>
      refine ⟨by simp [initState], ?_, ?_, ?_⟩
      · intro _
        simp [initState]
      · intro h
        rcases h with h | h <;> simp [initState] at h
      · intro h
        simp [initState] at h
    | tail _ hstep ih => exact step_preserves_inv ih hstep
  obtain ⟨h1, _, _, _⟩ := hinv
  omega

/-- Witness for C4 at the entry state itself. -/
theorem retry_bound_witness :
    (initState []).gens ≤ 4 :=
  retry_bound (fun _ => none) none [] [] (initState []) Relation.ReflTransGen.refl

/-- C10: in one transition of the graph, the execution node can only be
entered from the validation node and only with the error cleared; and a
step out of the synthesizer — a cache hit included — goes to validation or
to the terminal clarification exit, never straight to execution.  So a
cached statement is re-validated before it can be executed. -/
theorem exec_gated_by_validation (parse : Str → Option SqlAst) (cid : Option Int)
    (persons : List (Str × List Int)) (s s2 : PState)
    (hstep : Step parse cid persons s s2) :
    (s2.node = .execute_sql → s.node = .validate_sql ∧ s2.error = none) ∧
    (s.node = .generate_sql → s2.node = .validate_sql ∨ s2.node = .terminal) := by
  cases hstep with
  | gen o s hn hok =>
    constructor
    · intro h2
      rcases routeAfterGen_node (genNode cid persons o s) with h | h <;>
        rw [h] at h2 <;> exact absurd h2 (by decide)
    · intro _
      rcases routeAfterGen_node (genNode cid persons o s) with h | h
      · exact Or.inr h
      · exact Or.inl h
  | validate s hn =>
    constructor
    · intro h2
      refine ⟨hn, ?_⟩
      simp only [routeAfterValidation] at h2 ⊢
      by_cases he : (validateNode (fun q => validateSqlParsed none (parse q)) s).error.isSome
        = true
      · rw [if_pos he] at h2
        exfalso
        by_cases hrc :
            (validateNode (fun q => validateSqlParsed none (parse q)) s).retry_count < 3
        · rw [if_pos hrc] at h2
          exact absurd h2 (by decide)
        · rw [if_neg hrc] at h2
          exact absurd h2 (by decide)
      · show (validateNode (fun q => validateSqlParsed none (parse q)) s).error = none
        exact Option.not_isSome_iff_eq_none.mp (by simpa using he)
    · intro h0
      exact absurd (hn.symm.trans h0) (by decide)
  | execute o s hn =>
    constructor
    · intro h2
      exfalso
      simp only [routeAfterExecution] at h2
      by_cases he : (execNode o s).error.isSome = true
      · rw [if_pos he] at h2
        by_cases hrc : (execNode o s).retry_count < 3
        · rw [if_pos hrc] at h2
          exact absurd h2 (by decide)
        · rw [if_neg hrc] at h2
          exact absurd h2 (by decide)
      · rw [if_neg he] at h2
        exact absurd h2 (by decide)
    · intro h0
      exact absurd (hn.symm.trans h0) (by decide)
  | respond t s hn =>
    constructor
    · intro h2
      have : (respondNode t s).node = .terminal := by simp [respondNode]
      rw [this] at h2
      exact absurd h2 (by decide)
    · intro h0
      exact absurd (hn.symm.trans h0) (by decide)

/-- Parse oracle recognising one benign select statement. -/
def parseSel : Str → Option SqlAst :=
  fun s => if s = "SELECT 1 FROM tasks".toList then some exSelectAst else none

/-- A request state sitting at validation with a cached statement and a
stale error from an earlier attempt. -/
def w10 : PState :=
  { node := .validate_sql, messages := [], sql_query := some ("SELECT 1 FROM tasks".toList),
    error := some ("old".toList), retry_count := 1, from_cache := true, gens := 1,
    execs := 0, cacheWrites := 0 }

/-- Witness for C10: a concrete validation step on a cached statement whose
result is at the execution node does come out with the error cleared. -/
theorem exec_gated_by_validation_witness :
    (routeAfterValidation
      (validateNode (fun q => validateSqlParsed none (parseSel q)) w10)).error = none ∧
    (routeAfterValidation
      (validateNode (fun q => validateSqlParsed none (parseSel q)) w10)).node
      = .execute_sql :=
  ⟨((exec_gated_by_validation parseSel none [] w10 _ (Step.validate w10 rfl)).1
      (by decide)).2,
   by decide⟩

/-- The merged-and-routed state after a "text" (clarification) outcome. -/
def textStep (cid : Option Int) (persons : List (Str × List Int)) (t : Str)
    (s : PState) : PState :=
  routeAfterGen (genNode cid persons (.textOut t) s)

/-- C7 (amended): a "text" outcome sets the no-op sentinel, resets
`retry_count` to 0, makes the clarification the final message, performs no
cache write, and terminates the SQL pipeline immediately (the state is
terminal and admits no further step).  It does NOT clear a previously set
error: the returned update has no error key, so the error channel keeps its
old value. -/
theorem text_outcome_spec (parse : Str → Option SqlAst) (cid : Option Int)
    (persons : List (Str × List Int)) (t : Str) (s : PState) :
    (textStep cid persons t s).sql_query = some skipSentinel ∧
    (textStep cid persons t s).retry_count = 0 ∧
    (textStep cid persons t s).messages = [t] ∧
    (textStep cid persons t s).error = s.error ∧
    (textStep cid persons t s).cacheWrites = s.cacheWrites ∧
    (textStep cid persons t s).node = .terminal ∧
    ∀ s3, ¬ Step parse cid persons (textStep cid persons t s) s3 := by
  have hnode : (textStep cid persons t s).node = .terminal :=
    routeAfterGen_node_of_skip rfl
  exact ⟨rfl, rfl, rfl, rfl, rfl, hnode, fun s3 => terminal_no_step hnode⟩

/-- A generation state carrying an error from a failed earlier attempt. -/
def c7err : PState :=
  { node := .generate_sql, messages := [], sql_query := some ("DROP TABLE users".toList),
    error := some valErrMsg, retry_count := 2, from_cache := false, gens := 1,
    execs := 0, cacheWrites := 1 }

/-- C7 counterexample: a "text" outcome taken from a state with an error set
does not clear the error — the resulting state still carries it, refuting
"clears any error". -/
theorem text_outcome_counterexample :
    ¬ (routeAfterGen (genNode none []
        (.textOut ("Which month do you mean?".toList)) c7err)).error = none := by
  decide

/-- The statement the stub synthesizer keeps returning in the spec's
scenario 2. -/
def dropSql : Str := "DROP TABLE users".toList

/-- Parse oracle for that scenario: `DROP TABLE users` parses to a Drop
node over the `users` table. -/
def parseDrop : Str → Option SqlAst :=
  fun s => if s = dropSql then some exDropAst else none

def c6s1 : PState := routeAfterGen (genNode (some 7) [] (.sqlOut dropSql) (initState []))

def c6s2 : PState :=
  routeAfterValidation (validateNode (fun q => validateSqlParsed none (parseDrop q)) c6s1)

def c6s3 : PState := routeAfterGen (genNode (some 7) [] (.sqlOut dropSql) c6s2)

def c6s4 : PState :=
  routeAfterValidation (validateNode (fun q => validateSqlParsed none (parseDrop q)) c6s3)

def c6s5 : PState := respondNode [] c6s4

/-- The full run of the DROP scenario: generate, reject, regenerate,
reject, report. -/
theorem c6_trace : Reachable parseDrop (some 7) [] (initState []) c6s5 :=
  Relation.ReflTransGen.tail
    (Relation.ReflTransGen.tail
      (Relation.ReflTransGen.tail
        (Relation.ReflTransGen.tail
          (Relation.ReflTransGen.tail Relation.ReflTransGen.refl
            (Step.gen (.sqlOut dropSql) (initState []) rfl trivial))
          (Step.validate c6s1 (by decide)))
        (Step.gen (.sqlOut dropSql) c6s2 (by decide) trivial))
      (Step.validate c6s3 (by decide)))
    (Step.respond [] c6s4 (by decide))

/-- C6 (amended): with the synthesizer returning `DROP TABLE users` on
every attempt and the validator rejecting each one, the pipeline reaches
the terminal error-reporting path — the final message is the fixed apology
embedding the safety-policy error — without the executor ever running; it
does so after 2 synthesis attempts (not 3): generation and the failed
validation each increment the shared `retry_count`, so the `< 3` gate
already fails after the second rejection. -/
theorem drop_scenario_terminates :
    Reachable parseDrop (some 7) [] (initState []) c6s5 ∧
    c6s5.node = .terminal ∧
    c6s5.execs = 0 ∧
    c6s5.gens = 2 ∧
    c6s5.error = some valErrMsg ∧
    c6s5.messages = [errPrefixMsg ++ valErrMsg] ∧
    ∀ s3, ¬ Step parseDrop (some 7) [] c6s5 s3 :=
  ⟨c6_trace, by decide, by decide, by decide, by decide, by decide,
   fun _ => terminal_no_step (by decide)⟩

/-- C6 counterexample: the DROP scenario's run terminates (no further step
is possible) with the executor never called and exactly 2 synthesis
attempts — not the 3 the claim asserts. -/
theorem drop_scenario_counterexample :
    Reachable parseDrop (some 7) [] (initState []) c6s5 ∧
    (∀ s3, ¬ Step parseDrop (some 7) [] c6s5 s3) ∧
    c6s5.execs = 0 ∧
    ¬ c6s5.gens = 3 :=
  ⟨c6_trace, fun _ => terminal_no_step (by decide), by decide, by decide⟩
